import Mathlib

/-!
Verification of the `spl-burn-close-sdk` transaction/instruction builder.

The development shallowly embeds the two builders of the repository:

* `buildBurnAndCloseTransactions` (src/index.ts, lines 57-117): chunks the
  (mint, token-account) pairs, resolves one blockhash, and wraps one
  instruction per chunk into an unsigned transaction;
* `buildBurnAndCloseInstruction` (src/index.ts, lines 127-165): builds a
  single instruction covering all pairs, with no network interaction;
* the earlier revision of `buildBurnAndCloseTransactions` kept in the
  repository (payload `[0, FIXED_FEE_PERCENTAGE]`, one blockhash fetch per
  produced transaction), embedded as `buildBurnAndCloseTransactionsLegacy`.

Addresses are base58 strings and are modelled as plain strings; instruction
bytes are modelled as lists of naturals.  The RPC connection is modelled as
an oracle giving the result of the n-th `getLatestBlockhash` call, and each
builder returns, next to its result, the number of such calls it made.
-/

namespace SplBurnClose

/-- On-chain addresses (base58 strings), modelled as plain strings. -/
abbrev PublicKey := String

/-- `export type Pair = { mint: PublicKey; ata: PublicKey }` (src/index.ts line 26). -/
structure Pair where
  mint : PublicKey
  ata : PublicKey
deriving DecidableEq, Inhabited, Repr

/-- One entry of a web3.js instruction `keys` array: address plus signer/writable flags. -/
structure AccountMeta where
  pubkey : PublicKey
  isSigner : Bool
  isWritable : Bool
deriving DecidableEq, Inhabited, Repr

/-- A web3.js `TransactionInstruction`: program id, ordered account list, payload bytes. -/
structure TransactionInstruction where
  programId : PublicKey
  keys : List AccountMeta
  data : List Nat
deriving DecidableEq, Inhabited, Repr

/-- A web3.js `Transaction` as this SDK populates it: the added instructions,
the fee payer and the recent blockhash.  The SDK never signs. -/
structure Transaction where
  instructions : List TransactionInstruction
  feePayer : PublicKey
  recentBlockhash : String
deriving DecidableEq, Inhabited, Repr

/-- src/index.ts line 11. -/
def PROGRAM_ID : PublicKey := "UNCaXzXkR3vp8mbCJyxWUvwuRk5uHgzrwe6jcWPfiUR"

/-- src/index.ts line 14. -/
def FEE_RECIPIENT : PublicKey := "uncNCRycMtNPj2kXHfwiCgNrzCTnC9xU5FS8ZeWyn3M"

/-- src/index.ts line 18. -/
def TOKEN_PROGRAM_ID : PublicKey := "TokenkegQfeZyiNwAJbNbGKPFXCWuBvf9Ss623VQ5DA"

/-- src/index.ts line 22. -/
def TOKEN_2022_PROGRAM_ID : PublicKey := "TokenzQdBNbLqP5VEhdkAS6EPFLC1PHnBqCXEpPxuEb"

/-- `SystemProgram.programId` of web3.js, referenced at src/index.ts line 93. -/
def systemProgramId : PublicKey := "11111111111111111111111111111111"

/-- `FIXED_FEE_PERCENTAGE = 5` of the earlier revision (its line 23). -/
def FIXED_FEE_PERCENTAGE : Nat := 5

/-- `BuildOptions` (src/index.ts lines 28-43); every field is optional.
`chunkSize` is an `Int` so that zero and negative caller values are expressible. -/
structure BuildOptions where
  chunkSize : Option Int := none
  commitment : Option String := none
  feePayer : Option PublicKey := none
  recentBlockhash : Option String := none

/-- The RPC connection, reduced to the one method the builder uses:
`getLatestBlockhash` may be called several times; the oracle maps the call
index (0-based) and the commitment string to the call's outcome. -/
structure Connection where
  getLatestBlockhash : Nat → String → Except String String

/-- Line 67: `const chunkSize = Math.max(1, options.chunkSize ?? 12)`. -/
def effectiveChunkSize (options : BuildOptions) : Nat :=
  (max 1 (options.chunkSize.getD 12)).toNat

/-- Lines 72-75: `for (let i = 0; i < pairs.length; i += chunkSize)
chunks.push(pairs.slice(i, i + chunkSize))`, with the loop's iteration count
made explicit as fuel; `pairs.length` iterations always suffice because the
step is at least 1 wherever the builder calls this. -/
def chunkLoop (pairs : List Pair) (chunkSize : Nat) : Nat → Nat → List (List Pair)
  | 0, _ => []
  | fuel + 1, i =>
    if i < pairs.length then
      ((pairs.drop i).take chunkSize) :: chunkLoop pairs chunkSize fuel (i + chunkSize)
    else []

/-- The chunk list the builder computes from `pairs` at the given chunk size. -/
def chunkPairs (pairs : List Pair) (chunkSize : Nat) : List (List Pair) :=
  chunkLoop pairs chunkSize pairs.length 0

/-- Lines 96-101: each `{ mint, ata }` of a chunk contributes these two
writable, non-signer accounts, mint first. -/
def pairKeys (p : Pair) : List AccountMeta :=
  [{ pubkey := p.mint, isSigner := false, isWritable := true },
   { pubkey := p.ata, isSigner := false, isWritable := true }]

/-- Lines 87-101: the instruction's account list — four fixed accounts, then
the two accounts of each pair of the chunk, in chunk order. -/
def burnCloseKeys (user tokenProgramId : PublicKey) (chunk : List Pair) : List AccountMeta :=
  [{ pubkey := FEE_RECIPIENT, isSigner := false, isWritable := true },
   { pubkey := user, isSigner := true, isWritable := true },
   { pubkey := tokenProgramId, isSigner := false, isWritable := false },
   { pubkey := systemProgramId, isSigner := false, isWritable := false }] ++
  (chunk.map pairKeys).flatten

/-- Lines 103-107 (and identically lines 146-164): the instruction built for a
chunk; the payload is the single selector byte `[0]` (line 79 and line 138). -/
def mkBurnCloseIx (programId user tokenProgramId : PublicKey) (chunk : List Pair) :
    TransactionInstruction :=
  { programId := programId, keys := burnCloseKeys user tokenProgramId chunk, data := [0] }

/-- Lines 109-111: the unsigned transaction wrapping one chunk's instruction. -/
def mkBurnCloseTx (programId user tokenProgramId feePayer : PublicKey)
    (recentBlockhash : String) (chunk : List Pair) : Transaction :=
  { instructions := [mkBurnCloseIx programId user tokenProgramId chunk],
    feePayer := feePayer, recentBlockhash := recentBlockhash }

/-- Shallow embedding of `buildBurnAndCloseTransactions` (src/index.ts lines
57-117).  The second component of the result counts the `getLatestBlockhash`
network calls the build performed; a failed fetch aborts the call with the
fetch's error, exactly as the thrown exception does in the source. -/
def buildBurnAndCloseTransactions (connection : Connection) (programId : PublicKey)
    (user : PublicKey) (pairs : List Pair) (options : BuildOptions)
    (tokenProgramId : PublicKey) : Except String (List Transaction) × Nat :=
  if pairs.length = 0 then (Except.ok [], 0) else
  let chunkSize := effectiveChunkSize options
  let commitment := options.commitment.getD "confirmed"
  let feePayer := options.feePayer.getD user
  let chunks := chunkPairs pairs chunkSize
  match options.recentBlockhash with
  | some recentBlockhash =>
      (Except.ok (chunks.map
        (mkBurnCloseTx programId user tokenProgramId feePayer recentBlockhash)), 0)
  | none =>
      match connection.getLatestBlockhash 0 commitment with
      | Except.error e => (Except.error e, 1)
      | Except.ok recentBlockhash =>
          (Except.ok (chunks.map
            (mkBurnCloseTx programId user tokenProgramId feePayer recentBlockhash)), 1)

/-- Shallow embedding of `buildBurnAndCloseInstruction` (src/index.ts lines
127-165): no chunking, no connection argument, `null` on an empty pair list. -/
def buildBurnAndCloseInstruction (programId user : PublicKey) (pairs : List Pair)
    (tokenProgramId : PublicKey) : Option TransactionInstruction :=
  if pairs.length = 0 then none
  else some (mkBurnCloseIx programId user tokenProgramId pairs)

/-- Payload of the earlier revision: `Buffer.from([0, FIXED_FEE_PERCENTAGE])`. -/
def legacyData : List Nat := [0, FIXED_FEE_PERCENTAGE]

/-- The per-chunk instruction of the earlier revision: fixed token program,
payload `[0, 5]`. -/
def mkLegacyIx (programId user : PublicKey) (chunk : List Pair) : TransactionInstruction :=
  { programId := programId, keys := burnCloseKeys user TOKEN_PROGRAM_ID chunk,
    data := legacyData }

/-- The per-chunk loop of the earlier revision (its lines 78-112): when no
explicit blockhash is supplied, each produced transaction fetches its own;
a failed fetch aborts the whole call. -/
def legacyChunkLoop (connection : Connection) (programId user feePayer : PublicKey)
    (options : BuildOptions) (commitment : String) :
    List (List Pair) → Nat → Except String (List Transaction) × Nat
  | [], n => (Except.ok [], n)
  | chunk :: rest, n =>
    match options.recentBlockhash with
    | some bh =>
        match legacyChunkLoop connection programId user feePayer options commitment rest n with
        | (Except.ok txs, m) =>
            (Except.ok ({ instructions := [mkLegacyIx programId user chunk],
                          feePayer := feePayer, recentBlockhash := bh } :: txs), m)
        | (Except.error e, m) => (Except.error e, m)
    | none =>
        match connection.getLatestBlockhash n commitment with
        | Except.error e => (Except.error e, n + 1)
        | Except.ok bh =>
            match legacyChunkLoop connection programId user feePayer options commitment
                rest (n + 1) with
            | (Except.ok txs, m) =>
                (Except.ok ({ instructions := [mkLegacyIx programId user chunk],
                              feePayer := feePayer, recentBlockhash := bh } :: txs), m)
            | (Except.error e, m) => (Except.error e, m)

/-- Shallow embedding of the earlier revision of `buildBurnAndCloseTransactions`
(the repository file with payload `[0, FIXED_FEE_PERCENTAGE]`, lines 55-115). -/
def buildBurnAndCloseTransactionsLegacy (connection : Connection) (programId user : PublicKey)
    (pairs : List Pair) (options : BuildOptions) : Except String (List Transaction) × Nat :=
  if pairs.length = 0 then (Except.ok [], 0) else
  legacyChunkLoop connection programId user (options.feePayer.getD user) options
    (options.commitment.getD "confirmed") (chunkPairs pairs (effectiveChunkSize options)) 0

/-- Reads the (mint, token-account) pairs back out of the tail of an
instruction's account list: every two consecutive accounts form one pair.
Used only to state properties of the produced transactions. -/
def decodePairs : List AccountMeta → List Pair
  | m :: a :: rest => { mint := m.pubkey, ata := a.pubkey } :: decodePairs rest
  | _ => []

/-- The pair slice a produced transaction covers: the decoded tail (after the
four fixed accounts) of its single instruction's account list. -/
def txPairs (tx : Transaction) : List Pair :=
  match tx.instructions with
  | [ix] => decodePairs (ix.keys.drop 4)
  | _ => []

/-- A demo connection whose every fetch succeeds with the blockhash "hashA". -/
def connDemo : Connection := { getLatestBlockhash := fun _ _ => Except.ok "hashA" }

/-- A demo connection whose every fetch fails. -/
def connFail : Connection := { getLatestBlockhash := fun _ _ => Except.error "rpc down" }

def pairA : Pair := { mint := "mintA", ata := "ataA" }

def pairB : Pair := { mint := "mintB", ata := "ataB" }

def pairC : Pair := { mint := "mintC", ata := "ataC" }

/-- Demo options: chunk size 2, explicit blockhash supplied. -/
def optsBh : BuildOptions := { chunkSize := some 2, recentBlockhash := some "bh123" }

/-- Demo options: chunk size 2, no blockhash supplied. -/
def optsFetch : BuildOptions := { chunkSize := some 2 }

/-- Demo options: the caller passes chunk size 0 (normalized to 1 by the builder). -/
def optsZero : BuildOptions := { chunkSize := some 0, recentBlockhash := some "bh123" }

/-- The transactions the current builder produces on the three demo pairs. -/
def txsDemo : List Transaction :=
  ((buildBurnAndCloseTransactions connDemo PROGRAM_ID "user" [pairA, pairB, pairC] optsBh
    TOKEN_PROGRAM_ID).1).toOption.getD []

/-- The first demo transaction. -/
def txDemo0 : Transaction := txsDemo.headI

/-- The transactions the earlier-revision builder produces on the three demo pairs. -/
def txsLegacyDemo : List Transaction :=
  ((buildBurnAndCloseTransactionsLegacy connDemo PROGRAM_ID "user" [pairA, pairB, pairC]
    optsBh).1).toOption.getD []

/-- The first demo transaction of the earlier-revision builder. -/
def txLegacyDemo0 : Transaction := txsLegacyDemo.headI

theorem effectiveChunkSize_pos (options : BuildOptions) : 0 < effectiveChunkSize options := by
  simp only [effectiveChunkSize]
  omega

theorem chunkLoop_flatten (pairs : List Pair) (c : Nat) :
    ∀ fuel i, pairs.length ≤ i + fuel * c →
      (chunkLoop pairs c fuel i).flatten = pairs.drop i := by
  intro fuel
  induction fuel with
  | zero =>
    intro i h
    simp only [chunkLoop, List.flatten_nil]
    exact (List.drop_eq_nil_of_le (by simpa using h)).symm
  | succ fuel ih =>
    intro i h
    have hsm : (fuel + 1) * c = fuel * c + c := Nat.succ_mul fuel c
    simp only [chunkLoop]
    split
    · rename_i hi
      rw [List.flatten_cons, ih (i + c) (by linarith)]
      rw [← List.drop_drop, List.take_append_drop]
    · rename_i hi
      simp only [List.flatten_nil]
      exact (List.drop_eq_nil_of_le (by omega)).symm

theorem chunkLoop_length (pairs : List Pair) (c : Nat) (hc : 0 < c) :
    ∀ fuel i, pairs.length ≤ i + fuel * c →
      (chunkLoop pairs c fuel i).length = (pairs.length - i + c - 1) / c := by
  intro fuel
  induction fuel with
  | zero =>
    intro i h
    have hle : pairs.length ≤ i := by simpa using h
    have hz : pairs.length - i = 0 := Nat.sub_eq_zero_of_le hle
    simp only [chunkLoop, List.length_nil, hz]
    rw [Nat.div_eq_of_lt (by omega)]
  | succ fuel ih =>
    intro i h
    have hsm : (fuel + 1) * c = fuel * c + c := Nat.succ_mul fuel c
    simp only [chunkLoop]
    split
    · rename_i hi
      rw [List.length_cons, ih (i + c) (by linarith)]
      set m := pairs.length - i with hm
      have hm1 : 1 ≤ m := by omega
      have hr : pairs.length - (i + c) = m - c := by omega
      rw [hr]
      have h1 : m + c - 1 = (m - 1) + c := by omega
      rw [h1, Nat.add_div_right _ hc]
      by_cases hmc : m ≤ c
      · have h0 : m - c = 0 := by omega
        rw [h0, Nat.div_eq_of_lt (by omega), Nat.div_eq_of_lt (by omega)]
      · have h2 : m - c + c - 1 = (m - 1 - c) + c := by omega
        rw [h2, Nat.add_div_right _ hc]
        have hk : m - 1 = (m - 1 - c) + c := by omega
        have h4 : (m - 1) / c = (m - 1 - c) / c + 1 := by
          conv_lhs => rw [hk]
          rw [Nat.add_div_right _ hc]
        rw [h4]
    · rename_i hi
      have hz : pairs.length - i = 0 := Nat.sub_eq_zero_of_le (by omega)
      simp only [List.length_nil, hz]
      rw [Nat.div_eq_of_lt (by omega)]

theorem chunkLoop_get (pairs : List Pair) (c : Nat) :
    ∀ fuel i, pairs.length ≤ i + fuel * c →
      ∀ (k : Nat) (hk : k < (chunkLoop pairs c fuel i).length),
        (chunkLoop pairs c fuel i).get ⟨k, hk⟩ = (pairs.drop (i + c * k)).take c := by
  intro fuel
  induction fuel with
  | zero =>
    intro i h k hk
    simp [chunkLoop] at hk
  | succ fuel ih =>
    intro i h k hk
    have hsm : (fuel + 1) * c = fuel * c + c := Nat.succ_mul fuel c
    have hi : i < pairs.length := by
      by_contra hcon
      simp only [chunkLoop] at hk
      rw [if_neg hcon] at hk
      simp at hk
    have hloop : chunkLoop pairs c (fuel + 1) i
        = (pairs.drop i).take c :: chunkLoop pairs c fuel (i + c) := by
      simp only [chunkLoop]
      rw [if_pos hi]
    rcases k with _ | k
    · simp only [List.get_eq_getElem, hloop, List.getElem_cons_zero, Nat.mul_zero,
        Nat.add_zero]
    · have hk2 : k < (chunkLoop pairs c fuel (i + c)).length := by
        have hk3 := hk
        rw [hloop] at hk3
        simpa using hk3
      have hrec := ih (i + c) (by linarith) k hk2
      rw [List.get_eq_getElem] at hrec ⊢
      simp only [hloop, List.getElem_cons_succ]
      rw [hrec]
      have harith : i + c * (k + 1) = i + c + c * k := by
        rw [Nat.mul_succ]; ring
      rw [harith]

theorem chunkPairs_flatten (pairs : List Pair) (c : Nat) (hc : 0 < c) :
    (chunkPairs pairs c).flatten = pairs := by
  have hmul := Nat.le_mul_of_pos_right pairs.length hc
  have h := chunkLoop_flatten pairs c pairs.length 0 (by linarith)
  simpa [chunkPairs] using h

theorem chunkPairs_length (pairs : List Pair) (c : Nat) (hc : 0 < c) :
    (chunkPairs pairs c).length = (pairs.length + c - 1) / c := by
  have hmul := Nat.le_mul_of_pos_right pairs.length hc
  have h := chunkLoop_length pairs c hc pairs.length 0 (by linarith)
  simpa [chunkPairs] using h

theorem chunkPairs_get (pairs : List Pair) (c : Nat) (hc : 0 < c) (k : Nat)
    (hk : k < (chunkPairs pairs c).length) :
    (chunkPairs pairs c).get ⟨k, hk⟩ = (pairs.drop (c * k)).take c := by
  have hmul := Nat.le_mul_of_pos_right pairs.length hc
  have h := chunkLoop_get pairs c pairs.length 0 (by linarith) k hk
  simpa [chunkPairs] using h

theorem decodePairs_pairKeys (l : List Pair) :
    decodePairs ((l.map pairKeys).flatten) = l := by
  induction l with
  | nil => rfl
  | cons p ps ih =>
    have hstep : decodePairs ((List.map pairKeys (p :: ps)).flatten)
        = { mint := p.mint, ata := p.ata } :: decodePairs ((ps.map pairKeys).flatten) := rfl
    rw [hstep, ih]

theorem pairKeys_flatten_length (l : List Pair) :
    ((l.map pairKeys).flatten).length = 2 * l.length := by
  induction l with
  | nil => rfl
  | cons p ps ih =>
    simp only [List.map_cons, List.flatten_cons, List.length_append, ih, pairKeys,
      List.length_cons, List.length_nil]
    omega

theorem burnCloseKeys_drop4 (user tokenProgramId : PublicKey) (chunk : List Pair) :
    (burnCloseKeys user tokenProgramId chunk).drop 4 = (chunk.map pairKeys).flatten := rfl

theorem burnCloseKeys_length (user tokenProgramId : PublicKey) (chunk : List Pair) :
    (burnCloseKeys user tokenProgramId chunk).length = 4 + 2 * chunk.length := by
  simp only [burnCloseKeys, List.length_append, pairKeys_flatten_length]
  simp

theorem txPairs_mkBurnCloseTx (programId user tokenProgramId feePayer : PublicKey)
    (bh : String) (chunk : List Pair) :
    txPairs (mkBurnCloseTx programId user tokenProgramId feePayer bh chunk) = chunk := by
  simp only [txPairs, mkBurnCloseTx, mkBurnCloseIx, burnCloseKeys_drop4, decodePairs_pairKeys]

theorem build_eq_some (connection : Connection) (programId user : PublicKey)
    (pairs : List Pair) (options : BuildOptions) (tokenProgramId : PublicKey) (bh : String)
    (hne : pairs ≠ []) (hbh : options.recentBlockhash = some bh) :
    buildBurnAndCloseTransactions connection programId user pairs options tokenProgramId =
      (Except.ok ((chunkPairs pairs (effectiveChunkSize options)).map
        (mkBurnCloseTx programId user tokenProgramId (options.feePayer.getD user) bh)), 0) := by
  have hlen : ¬ pairs.length = 0 := by simpa [List.length_eq_zero] using hne
  simp only [buildBurnAndCloseTransactions, if_neg hlen, hbh]

theorem build_eq_fetch_ok (connection : Connection) (programId user : PublicKey)
    (pairs : List Pair) (options : BuildOptions) (tokenProgramId : PublicKey) (bh : String)
    (hne : pairs ≠ []) (hbh : options.recentBlockhash = none)
    (hfetch : connection.getLatestBlockhash 0 (options.commitment.getD "confirmed")
        = Except.ok bh) :
    buildBurnAndCloseTransactions connection programId user pairs options tokenProgramId =
      (Except.ok ((chunkPairs pairs (effectiveChunkSize options)).map
        (mkBurnCloseTx programId user tokenProgramId (options.feePayer.getD user) bh)), 1) := by
  have hlen : ¬ pairs.length = 0 := by simpa [List.length_eq_zero] using hne
  simp only [buildBurnAndCloseTransactions, if_neg hlen, hbh, hfetch]

theorem build_eq_fetch_err (connection : Connection) (programId user : PublicKey)
    (pairs : List Pair) (options : BuildOptions) (tokenProgramId : PublicKey) (e : String)
    (hne : pairs ≠ []) (hbh : options.recentBlockhash = none)
    (hfetch : connection.getLatestBlockhash 0 (options.commitment.getD "confirmed")
        = Except.error e) :
    buildBurnAndCloseTransactions connection programId user pairs options tokenProgramId =
      (Except.error e, 1) := by
  have hlen : ¬ pairs.length = 0 := by simpa [List.length_eq_zero] using hne
  simp only [buildBurnAndCloseTransactions, if_neg hlen, hbh, hfetch]

theorem build_ok_shape (connection : Connection) (programId user : PublicKey)
    (pairs : List Pair) (options : BuildOptions) (tokenProgramId : PublicKey)
    (txs : List Transaction) (hne : pairs ≠ [])
    (hok : (buildBurnAndCloseTransactions connection programId user pairs options
        tokenProgramId).1 = Except.ok txs) :
    ∃ bh, txs = (chunkPairs pairs (effectiveChunkSize options)).map
      (mkBurnCloseTx programId user tokenProgramId (options.feePayer.getD user) bh) := by
  cases hrb : options.recentBlockhash with
  | some bh =>
    rw [build_eq_some connection programId user pairs options tokenProgramId bh hne hrb] at hok
    simp only [Except.ok.injEq] at hok
    exact ⟨bh, hok.symm⟩
  | none =>
    cases hfetch : connection.getLatestBlockhash 0 (options.commitment.getD "confirmed") with
    | error e =>
      rw [build_eq_fetch_err connection programId user pairs options tokenProgramId e hne hrb
        hfetch] at hok
      simp at hok
    | ok bh =>
      rw [build_eq_fetch_ok connection programId user pairs options tokenProgramId bh hne hrb
        hfetch] at hok
      simp only [Except.ok.injEq] at hok
      exact ⟨bh, hok.symm⟩

theorem legacyChunkLoop_data (connection : Connection) (programId user feePayer : PublicKey)
    (options : BuildOptions) (commitment : String) :
    ∀ (chunks : List (List Pair)) (n : Nat) (txs : List Transaction) (m : Nat),
      legacyChunkLoop connection programId user feePayer options commitment chunks n
        = (Except.ok txs, m) →
      ∀ tx ∈ txs, ∀ ix ∈ tx.instructions, ix.data = legacyData := by
  intro chunks
  induction chunks with
  | nil =>
    intro n txs m h tx htx ix hix
    simp only [legacyChunkLoop, Prod.mk.injEq, Except.ok.injEq] at h
    rcases h with ⟨h1, h2⟩
    subst h1
    simp at htx
  | cons chunk rest ih =>
    intro n txs m h tx htx ix hix
    rcases hrb : options.recentBlockhash with _ | bh
    · rcases hfetch : connection.getLatestBlockhash n commitment with e | bh
      · simp only [legacyChunkLoop, hrb, hfetch] at h
        simp at h
      · rcases hrec : legacyChunkLoop connection programId user feePayer options commitment
            rest (n + 1) with ⟨res, cnt⟩
        cases res with
        | error e2 =>
          simp only [legacyChunkLoop, hrb, hfetch, hrec] at h
          simp at h
        | ok txs' =>
          simp only [legacyChunkLoop, hrb, hfetch, hrec, Prod.mk.injEq,
            Except.ok.injEq] at h
          rcases h with ⟨h1, h2⟩
          subst h1
          rcases List.mem_cons.mp htx with heq | hmem
          · subst heq
            simp only [List.mem_singleton] at hix
            subst hix
            rfl
          · exact ih (n + 1) txs' cnt hrec tx hmem ix hix
    · rcases hrec : legacyChunkLoop connection programId user feePayer options commitment
          rest n with ⟨res, cnt⟩
      cases res with
      | error e2 =>
        simp only [legacyChunkLoop, hrb, hrec] at h
        simp at h
      | ok txs' =>
        simp only [legacyChunkLoop, hrb, hrec, Prod.mk.injEq, Except.ok.injEq] at h
        rcases h with ⟨h1, h2⟩
        subst h1
        rcases List.mem_cons.mp htx with heq | hmem
        · subst heq
          simp only [List.mem_singleton] at hix
          subst hix
          rfl
        · exact ih n txs' cnt hrec tx hmem ix hix

theorem headI_mem_of_ne_nil {α : Type} [Inhabited α] :
    ∀ (l : List α), l ≠ [] → l.headI ∈ l
  | [], h => absurd rfl h
  | a :: l, _ => List.mem_cons_self a l

theorem txsDemo_ne_nil : txsDemo ≠ [] := by decide

theorem txDemo0_mem : txDemo0 ∈ txsDemo := headI_mem_of_ne_nil txsDemo txsDemo_ne_nil

theorem txsLegacyDemo_ne_nil : txsLegacyDemo ≠ [] := by decide

theorem txLegacyDemo0_mem : txLegacyDemo0 ∈ txsLegacyDemo :=
  headI_mem_of_ne_nil txsLegacyDemo txsLegacyDemo_ne_nil

theorem txPairs_comp_mkBurnCloseTx (programId user tokenProgramId feePayer : PublicKey)
    (bh : String) :
    txPairs ∘ mkBurnCloseTx programId user tokenProgramId feePayer bh = id := by
  funext chunk
  simp [Function.comp_apply, id_eq, txPairs_mkBurnCloseTx]

theorem chunk_index_lt (len c k : Nat) (hc : 0 < c) (hk : k < (len + c - 1) / c) :
    c * k < len := by
  rcases Nat.eq_zero_or_pos len with hlen | hlen
  · subst hlen
    rw [Nat.div_eq_of_lt (by omega)] at hk
    omega
  · have h2 : (k + 1) * c ≤ ((len + c - 1) / c) * c :=
      Nat.mul_le_mul_right c hk
    have h3 : ((len + c - 1) / c) * c ≤ len + c - 1 := Nat.div_mul_le_self _ _
    have h4 : (k + 1) * c = k * c + c := Nat.succ_mul k c
    have h5 : c * k = k * c := Nat.mul_comm c k
    have h6 : len + c - 1 + 1 = len + c := by omega
    linarith

/-- C1: for every non-empty pair list and every options value (hence every
effective chunk size ≥ 1), a successful `buildBurnAndCloseTransactions` call
returns exactly ⌈len/size⌉ transactions; the k-th transaction covers the k-th
contiguous window of the input (the last one possibly shorter), and
concatenating the per-transaction pair slices in order reconstructs the input
exactly — no pair split, duplicated, or dropped. -/
theorem C1_chunk_partition (connection : Connection) (programId user : PublicKey)
    (p : Pair) (ps : List Pair) (options : BuildOptions) (tokenProgramId : PublicKey)
    (txs : List Transaction)
    (hok : (buildBurnAndCloseTransactions connection programId user (p :: ps) options
        tokenProgramId).1 = Except.ok txs) :
    txs.length
        = ((p :: ps).length + effectiveChunkSize options - 1) / effectiveChunkSize options
      ∧ (txs.map txPairs).flatten = p :: ps
      ∧ ∀ (k : Nat) (hk : k < txs.length),
          txPairs (txs.get ⟨k, hk⟩)
            = ((p :: ps).drop (effectiveChunkSize options * k)).take
                (effectiveChunkSize options) := by
  obtain ⟨bh, htxs⟩ := build_ok_shape connection programId user (p :: ps) options
    tokenProgramId txs (List.cons_ne_nil p ps) hok
  subst htxs
  have hc := effectiveChunkSize_pos options
  refine ⟨?_, ?_, ?_⟩
  · rw [List.length_map, chunkPairs_length _ _ hc]
  · rw [List.map_map, txPairs_comp_mkBurnCloseTx, List.map_id,
      chunkPairs_flatten _ _ hc]
  · intro k hk
    have hk2 : k < (chunkPairs (p :: ps) (effectiveChunkSize options)).length := by
      simpa using hk
    have hget := chunkPairs_get (p :: ps) (effectiveChunkSize options) hc k hk2
    rw [List.get_eq_getElem] at hget ⊢
    rw [List.getElem_map, txPairs_mkBurnCloseTx, hget]

/-- C1 witness: three demo pairs at chunk size 2 — two transactions whose
slices reassemble the input. -/
theorem C1_chunk_partition_witness :
    (buildBurnAndCloseTransactions connDemo PROGRAM_ID "user" [pairA, pairB, pairC] optsBh
        TOKEN_PROGRAM_ID).1 = Except.ok txsDemo
      ∧ txsDemo.length
          = (([pairA, pairB, pairC] : List Pair).length + effectiveChunkSize optsBh - 1)
              / effectiveChunkSize optsBh
      ∧ (txsDemo.map txPairs).flatten = [pairA, pairB, pairC] := by
  have h := C1_chunk_partition connDemo PROGRAM_ID "user" pairA [pairB, pairC] optsBh
    TOKEN_PROGRAM_ID txsDemo rfl
  exact ⟨rfl, h.1, h.2.1⟩

/-- C4: an empty pair list returns an empty list immediately — zero network
calls and no instruction built. -/
theorem C4_empty_pairs (connection : Connection) (programId user : PublicKey)
    (options : BuildOptions) (tokenProgramId : PublicKey) :
    buildBurnAndCloseTransactions connection programId user [] options tokenProgramId
      = (Except.ok [], 0) := rfl

/-- C2: in both builders, every produced instruction's account list has length
4 + 2×(chunk length); indices 0–3 are exactly fee-recipient (writable,
non-signer), user (writable, signer), token-program (read-only, non-signer),
system-program (read-only, non-signer), in that order, followed by, for each
pair in input order, mint then token-account, both writable non-signers. -/
theorem C2_account_layout (connection : Connection)
    (programId user tokenProgramId tokenProgramId2 : PublicKey)
    (pairs pairs2 : List Pair) (options : BuildOptions) :
    (∀ txs, (buildBurnAndCloseTransactions connection programId user pairs options
        tokenProgramId).1 = Except.ok txs →
      ∀ tx ∈ txs, ∃ ix, tx.instructions = [ix]
        ∧ ix.keys.length = 4 + 2 * (txPairs tx).length
        ∧ ix.keys = { pubkey := FEE_RECIPIENT, isSigner := false, isWritable := true }
            :: { pubkey := user, isSigner := true, isWritable := true }
            :: { pubkey := tokenProgramId, isSigner := false, isWritable := false }
            :: { pubkey := systemProgramId, isSigner := false, isWritable := false }
            :: ((txPairs tx).map (fun q =>
                  [{ pubkey := q.mint, isSigner := false, isWritable := true },
                   { pubkey := q.ata, isSigner := false, isWritable := true }])).flatten)
  ∧ (∀ ix, buildBurnAndCloseInstruction programId user pairs2 tokenProgramId2 = some ix →
      ix.keys.length = 4 + 2 * pairs2.length
      ∧ ix.keys = { pubkey := FEE_RECIPIENT, isSigner := false, isWritable := true }
          :: { pubkey := user, isSigner := true, isWritable := true }
          :: { pubkey := tokenProgramId2, isSigner := false, isWritable := false }
          :: { pubkey := systemProgramId, isSigner := false, isWritable := false }
          :: (pairs2.map (fun q =>
                [{ pubkey := q.mint, isSigner := false, isWritable := true },
                 { pubkey := q.ata, isSigner := false, isWritable := true }])).flatten) := by
  constructor
  · intro txs hok tx htx
    cases pairs with
    | nil =>
      have htxs : txs = [] := by
        simpa [buildBurnAndCloseTransactions] using hok.symm
      subst htxs
      simp at htx
    | cons p ps =>
      obtain ⟨bh, htxs⟩ := build_ok_shape connection programId user (p :: ps) options
        tokenProgramId txs (List.cons_ne_nil p ps) hok
      subst htxs
      obtain ⟨chunk, hchunk, htx2⟩ := List.mem_map.mp htx
      subst htx2
      refine ⟨mkBurnCloseIx programId user tokenProgramId chunk, rfl, ?_, ?_⟩
      · rw [txPairs_mkBurnCloseTx]
        exact burnCloseKeys_length user tokenProgramId chunk
      · rw [txPairs_mkBurnCloseTx]
        rfl
  · intro ix hix
    cases pairs2 with
    | nil => simp [buildBurnAndCloseInstruction] at hix
    | cons q qs =>
      have hix2 : ix = mkBurnCloseIx programId user tokenProgramId2 (q :: qs) := by
        simpa [buildBurnAndCloseInstruction] using hix.symm
      subst hix2
      exact ⟨burnCloseKeys_length user tokenProgramId2 (q :: qs), rfl⟩

/-- C2 witness: the first demo transaction's instruction has 4 + 2×2 accounts. -/
theorem C2_account_layout_witness :
    txDemo0.instructions.headI.keys.length = 4 + 2 * (txPairs txDemo0).length := by
  have h := (C2_account_layout connDemo PROGRAM_ID "user" TOKEN_PROGRAM_ID TOKEN_PROGRAM_ID
    [pairA, pairB, pairC] [pairA] optsBh).1 txsDemo rfl txDemo0 txDemo0_mem
  obtain ⟨ix, h1, h2, h3⟩ := h
  rw [h1]
  simpa using h2

/-- C3: with non-empty pairs, a supplied `options.recentBlockhash` means zero
network calls and every produced transaction carries the supplied value; an
omitted one means exactly one fetch (call index 0), and every produced
transaction across all chunks carries that one fetched value. -/
theorem C3_single_blockhash_fetch (connection : Connection) (programId user : PublicKey)
    (p : Pair) (ps : List Pair) (options : BuildOptions) (tokenProgramId : PublicKey) :
    (∀ bh, options.recentBlockhash = some bh →
        (buildBurnAndCloseTransactions connection programId user (p :: ps) options
            tokenProgramId).2 = 0
        ∧ ∀ txs, (buildBurnAndCloseTransactions connection programId user (p :: ps) options
              tokenProgramId).1 = Except.ok txs →
            ∀ tx ∈ txs, tx.recentBlockhash = bh)
  ∧ (options.recentBlockhash = none →
        (buildBurnAndCloseTransactions connection programId user (p :: ps) options
            tokenProgramId).2 = 1
        ∧ ∀ bh, connection.getLatestBlockhash 0 (options.commitment.getD "confirmed")
              = Except.ok bh →
            ∀ txs, (buildBurnAndCloseTransactions connection programId user (p :: ps) options
                tokenProgramId).1 = Except.ok txs →
              ∀ tx ∈ txs, tx.recentBlockhash = bh) := by
  constructor
  · intro bh hbh
    have hb := build_eq_some connection programId user (p :: ps) options tokenProgramId bh
      (List.cons_ne_nil p ps) hbh
    constructor
    · rw [hb]
    · intro txs hok tx htx
      rw [hb] at hok
      simp only [Except.ok.injEq] at hok
      subst hok
      obtain ⟨chunk, hchunk, htx2⟩ := List.mem_map.mp htx
      subst htx2
      rfl
  · intro hnone
    cases hfetch : connection.getLatestBlockhash 0 (options.commitment.getD "confirmed") with
    | error e =>
      have hb := build_eq_fetch_err connection programId user (p :: ps) options
        tokenProgramId e (List.cons_ne_nil p ps) hnone hfetch
      constructor
      · rw [hb]
      · intro bh hfetch2
        simp at hfetch2
    | ok bh0 =>
      have hb := build_eq_fetch_ok connection programId user (p :: ps) options
        tokenProgramId bh0 (List.cons_ne_nil p ps) hnone hfetch
      constructor
      · rw [hb]
      · intro bh hfetch2 txs hok tx htx
        simp only [Except.ok.injEq] at hfetch2
        subst hfetch2
        rw [hb] at hok
        simp only [Except.ok.injEq] at hok
        subst hok
        obtain ⟨chunk, hchunk, htx2⟩ := List.mem_map.mp htx
        subst htx2
        rfl

/-- C3 witness: supplied blockhash ⇒ zero fetches and the transactions carry
it; omitted blockhash ⇒ exactly one fetch. -/
theorem C3_single_blockhash_fetch_witness :
    (buildBurnAndCloseTransactions connDemo PROGRAM_ID "user" [pairA, pairB, pairC] optsBh
        TOKEN_PROGRAM_ID).2 = 0
    ∧ txDemo0.recentBlockhash = "bh123"
    ∧ (buildBurnAndCloseTransactions connDemo PROGRAM_ID "user" [pairA, pairB, pairC]
        optsFetch TOKEN_PROGRAM_ID).2 = 1 := by
  have h1 := (C3_single_blockhash_fetch connDemo PROGRAM_ID "user" pairA [pairB, pairC]
    optsBh TOKEN_PROGRAM_ID).1 "bh123" rfl
  have h2 := (C3_single_blockhash_fetch connDemo PROGRAM_ID "user" pairA [pairB, pairC]
    optsFetch TOKEN_PROGRAM_ID).2 rfl
  exact ⟨h1.1, h1.2 txsDemo rfl txDemo0 txDemo0_mem, h2.1⟩

/-- C5: the instruction payload is a constant — `[0]` for the current chunked
builder and the single-instruction builder, `[0, FIXED_FEE_PERCENTAGE]` for
the earlier revision — independent of pair content, hence invariant under any
permutation or resizing of the pair list and under every other input. -/
theorem C5_payload_constant (connection : Connection) (programId user : PublicKey)
    (pairs : List Pair) (options : BuildOptions) (tokenProgramId : PublicKey) :
    (∀ txs, (buildBurnAndCloseTransactions connection programId user pairs options
        tokenProgramId).1 = Except.ok txs →
        ∀ tx ∈ txs, ∀ ix ∈ tx.instructions, ix.data = [0])
  ∧ (∀ txs, (buildBurnAndCloseTransactionsLegacy connection programId user pairs
        options).1 = Except.ok txs →
        ∀ tx ∈ txs, ∀ ix ∈ tx.instructions, ix.data = [0, FIXED_FEE_PERCENTAGE])
  ∧ (∀ ix, buildBurnAndCloseInstruction programId user pairs tokenProgramId = some ix →
        ix.data = [0]) := by
  refine ⟨?_, ?_, ?_⟩
  · intro txs hok tx htx ix hix
    cases pairs with
    | nil =>
      have htxs : txs = [] := by
        simpa [buildBurnAndCloseTransactions] using hok.symm
      subst htxs
      simp at htx
    | cons p ps =>
      obtain ⟨bh, htxs⟩ := build_ok_shape connection programId user (p :: ps) options
        tokenProgramId txs (List.cons_ne_nil p ps) hok
      subst htxs
      obtain ⟨chunk, hchunk, htx2⟩ := List.mem_map.mp htx
      subst htx2
      simp only [mkBurnCloseTx, List.mem_singleton] at hix
      subst hix
      rfl
  · intro txs hok tx htx ix hix
    by_cases hp : pairs.length = 0
    · simp only [buildBurnAndCloseTransactionsLegacy, if_pos hp] at hok
      simp only [Except.ok.injEq] at hok
      subst hok
      simp at htx
    · simp only [buildBurnAndCloseTransactionsLegacy, if_neg hp] at hok
      have heq : legacyChunkLoop connection programId user (options.feePayer.getD user)
          options (options.commitment.getD "confirmed")
          (chunkPairs pairs (effectiveChunkSize options)) 0
          = (Except.ok txs,
             (legacyChunkLoop connection programId user (options.feePayer.getD user)
               options (options.commitment.getD "confirmed")
               (chunkPairs pairs (effectiveChunkSize options)) 0).2) := by
        rw [← hok]
      exact legacyChunkLoop_data connection programId user (options.feePayer.getD user)
        options (options.commitment.getD "confirmed") _ 0 txs _ heq tx htx ix hix
  · intro ix hix
    cases pairs with
    | nil => simp [buildBurnAndCloseInstruction] at hix
    | cons q qs =>
      have hix2 : ix = mkBurnCloseIx programId user tokenProgramId (q :: qs) := by
        simpa [buildBurnAndCloseInstruction] using hix.symm
      subst hix2
      rfl

/-- C5 witness: the demo instructions carry the constant payloads. -/
theorem C5_payload_constant_witness :
    txDemo0.instructions.headI.data = [0]
    ∧ txLegacyDemo0.instructions.headI.data = [0, FIXED_FEE_PERCENTAGE] := by
  have h := C5_payload_constant connDemo PROGRAM_ID "user" [pairA, pairB, pairC] optsBh
    TOKEN_PROGRAM_ID
  exact ⟨h.1 txsDemo rfl txDemo0 txDemo0_mem txDemo0.instructions.headI (by decide),
    h.2.1 txsLegacyDemo rfl txLegacyDemo0 txLegacyDemo0_mem
      txLegacyDemo0.instructions.headI (by decide)⟩

/-- C6: the single-instruction builder returns none for empty pairs; for a
non-empty pair list it returns exactly one instruction covering all supplied
pairs with no chunking, with the same account-ordering (via `burnCloseKeys`)
and payload (`[0]`) rule as the chunked builder; its signature takes no
connection, so no network interaction and no blockhash are involved. -/
theorem C6_single_instruction (programId user tokenProgramId : PublicKey) :
    buildBurnAndCloseInstruction programId user [] tokenProgramId = none
  ∧ ∀ (q : Pair) (qs : List Pair), ∃ ix,
      buildBurnAndCloseInstruction programId user (q :: qs) tokenProgramId = some ix
      ∧ ix.programId = programId
      ∧ ix.data = [0]
      ∧ ix.keys = burnCloseKeys user tokenProgramId (q :: qs)
      ∧ decodePairs (ix.keys.drop 4) = q :: qs := by
  refine ⟨rfl, ?_⟩
  intro q qs
  refine ⟨mkBurnCloseIx programId user tokenProgramId (q :: qs), ?_, rfl, rfl, rfl, ?_⟩
  · simp [buildBurnAndCloseInstruction]
  · show decodePairs ((burnCloseKeys user tokenProgramId (q :: qs)).drop 4) = q :: qs
    rw [burnCloseKeys_drop4, decodePairs_pairKeys]

/-- C7: a build call either fails with the error of the single up-front
blockhash fetch (call index 0) and produces nothing, or succeeds with one
transaction per chunk, jointly covering the whole input — no partial output. -/
theorem C7_all_or_nothing (connection : Connection) (programId user : PublicKey)
    (pairs : List Pair) (options : BuildOptions) (tokenProgramId : PublicKey) :
    (∀ e, (buildBurnAndCloseTransactions connection programId user pairs options
        tokenProgramId).1 = Except.error e →
        options.recentBlockhash = none
        ∧ connection.getLatestBlockhash 0 (options.commitment.getD "confirmed")
            = Except.error e)
  ∧ (∀ txs, (buildBurnAndCloseTransactions connection programId user pairs options
        tokenProgramId).1 = Except.ok txs →
        txs.length = (chunkPairs pairs (effectiveChunkSize options)).length
        ∧ (txs.map txPairs).flatten = pairs) := by
  constructor
  · intro e herr
    cases pairs with
    | nil => simp [buildBurnAndCloseTransactions] at herr
    | cons p ps =>
      cases hrb : options.recentBlockhash with
      | some bh =>
        rw [build_eq_some connection programId user (p :: ps) options tokenProgramId bh
          (List.cons_ne_nil p ps) hrb] at herr
        simp at herr
      | none =>
        cases hfetch : connection.getLatestBlockhash 0
            (options.commitment.getD "confirmed") with
        | ok bh =>
          rw [build_eq_fetch_ok connection programId user (p :: ps) options tokenProgramId
            bh (List.cons_ne_nil p ps) hrb hfetch] at herr
          simp at herr
        | error e2 =>
          rw [build_eq_fetch_err connection programId user (p :: ps) options tokenProgramId
            e2 (List.cons_ne_nil p ps) hrb hfetch] at herr
          simp only [Except.error.injEq] at herr
          subst herr
          exact ⟨rfl, rfl⟩
  · intro txs hok
    cases pairs with
    | nil =>
      have htxs : txs = [] := by
        simpa [buildBurnAndCloseTransactions] using hok.symm
      subst htxs
      exact ⟨by simp [chunkPairs, chunkLoop], by simp⟩
    | cons p ps =>
      obtain ⟨bh, htxs⟩ := build_ok_shape connection programId user (p :: ps) options
        tokenProgramId txs (List.cons_ne_nil p ps) hok
      subst htxs
      have hc := effectiveChunkSize_pos options
      refine ⟨List.length_map _ _, ?_⟩
      rw [List.map_map, txPairs_comp_mkBurnCloseTx, List.map_id,
        chunkPairs_flatten _ _ hc]

/-- C7 witness: a failing fetch surfaces as the call's error with no output;
a successful call covers every chunk. -/
theorem C7_all_or_nothing_witness :
    optsFetch.recentBlockhash = none
    ∧ connFail.getLatestBlockhash 0 (optsFetch.commitment.getD "confirmed")
        = Except.error "rpc down"
    ∧ txsDemo.length = (chunkPairs [pairA, pairB, pairC] (effectiveChunkSize optsBh)).length
    ∧ (txsDemo.map txPairs).flatten = [pairA, pairB, pairC] := by
  have h1 := (C7_all_or_nothing connFail PROGRAM_ID "user" [pairA, pairB, pairC] optsFetch
    TOKEN_PROGRAM_ID).1 "rpc down" rfl
  have h2 := (C7_all_or_nothing connDemo PROGRAM_ID "user" [pairA, pairB, pairC] optsBh
    TOKEN_PROGRAM_ID).2 txsDemo rfl
  exact ⟨h1.1, h1.2, h2.1, h2.2⟩

/-- C8: for every `chunkSize` option (zero and negative included) the
effective chunk size is max(1, chunkSize or 12), at least 1; no validation
error is raised and the chunking loop terminates having placed every pair. -/
theorem C8_chunk_size_defensive (connection : Connection) (programId user : PublicKey)
    (q : Pair) (qs : List Pair) (options : BuildOptions) (tokenProgramId : PublicKey) :
    ((effectiveChunkSize options : Int) = max 1 (options.chunkSize.getD 12))
  ∧ 1 ≤ effectiveChunkSize options
  ∧ ∀ bh, options.recentBlockhash = some bh →
      ∃ txs, (buildBurnAndCloseTransactions connection programId user (q :: qs) options
          tokenProgramId).1 = Except.ok txs
        ∧ (txs.map txPairs).flatten = q :: qs := by
  refine ⟨?_, effectiveChunkSize_pos options, ?_⟩
  · simp only [effectiveChunkSize]
    exact Int.toNat_of_nonneg (le_trans zero_le_one (le_max_left _ _))
  · intro bh hbh
    have hb := build_eq_some connection programId user (q :: qs) options tokenProgramId bh
      (List.cons_ne_nil q qs) hbh
    have hc := effectiveChunkSize_pos options
    refine ⟨_, by rw [hb], ?_⟩
    rw [List.map_map, txPairs_comp_mkBurnCloseTx, List.map_id,
      chunkPairs_flatten _ _ hc]

/-- C8 witness: chunk size 0 is normalized to 1 and the build still succeeds,
covering the input. -/
theorem C8_chunk_size_defensive_witness :
    ((effectiveChunkSize optsZero : Int) = max 1 (optsZero.chunkSize.getD 12))
    ∧ 1 ≤ effectiveChunkSize optsZero
    ∧ ((((buildBurnAndCloseTransactions connDemo PROGRAM_ID "user" [pairA] optsZero
          TOKEN_PROGRAM_ID).1).toOption.getD []).map txPairs).flatten = [pairA] := by
  have h := C8_chunk_size_defensive connDemo PROGRAM_ID "user" pairA [] optsZero
    TOKEN_PROGRAM_ID
  obtain ⟨txs, hok, hflat⟩ := h.2.2 "bh123" rfl
  refine ⟨h.1, h.2.1, ?_⟩
  rw [hok]
  exact hflat

/-- C9: every transaction of one call carries fee-payer `options.feePayer`
when supplied and `user` otherwise — the same value across all transactions
of that call. -/
theorem C9_fee_payer (connection : Connection) (programId user : PublicKey)
    (pairs : List Pair) (options : BuildOptions) (tokenProgramId : PublicKey) :
    ∀ txs, (buildBurnAndCloseTransactions connection programId user pairs options
        tokenProgramId).1 = Except.ok txs →
      (∀ tx ∈ txs, tx.feePayer = options.feePayer.getD user)
      ∧ (∀ fp, options.feePayer = some fp → ∀ tx ∈ txs, tx.feePayer = fp)
      ∧ (options.feePayer = none → ∀ tx ∈ txs, tx.feePayer = user) := by
  intro txs hok
  have hbase : ∀ tx ∈ txs, tx.feePayer = options.feePayer.getD user := by
    cases pairs with
    | nil =>
      have htxs : txs = [] := by
        simpa [buildBurnAndCloseTransactions] using hok.symm
      subst htxs
      simp
    | cons p ps =>
      obtain ⟨bh, htxs⟩ := build_ok_shape connection programId user (p :: ps) options
        tokenProgramId txs (List.cons_ne_nil p ps) hok
      subst htxs
      intro tx htx
      obtain ⟨chunk, hchunk, htx2⟩ := List.mem_map.mp htx
      subst htx2
      rfl
  refine ⟨hbase, ?_, ?_⟩
  · intro fp hfp tx htx
    rw [hbase tx htx, hfp]
    rfl
  · intro hfp tx htx
    rw [hbase tx htx, hfp]
    rfl

/-- C9 witness: with no `feePayer` option, the demo transaction's fee payer
is the user. -/
theorem C9_fee_payer_witness : txDemo0.feePayer = "user" := by
  have h := C9_fee_payer connDemo PROGRAM_ID "user" [pairA, pairB, pairC] optsBh
    TOKEN_PROGRAM_ID txsDemo rfl
  exact h.2.2 rfl txDemo0 txDemo0_mem

/-- C10: for a non-empty pair list, the single instruction wrapped in the k-th
transaction of `buildBurnAndCloseTransactions` is exactly the instruction
`buildBurnAndCloseInstruction` returns for the k-th chunk with the same
program id, user and token program. -/
theorem C10_wraps_single_instruction (connection : Connection) (programId user : PublicKey)
    (p : Pair) (ps : List Pair) (options : BuildOptions) (tokenProgramId : PublicKey) :
    ∀ txs, (buildBurnAndCloseTransactions connection programId user (p :: ps) options
        tokenProgramId).1 = Except.ok txs →
      ∀ (k : Nat) (hk : k < txs.length), ∃ ix,
        (txs.get ⟨k, hk⟩).instructions = [ix]
        ∧ buildBurnAndCloseInstruction programId user
            (((p :: ps).drop (effectiveChunkSize options * k)).take
              (effectiveChunkSize options)) tokenProgramId = some ix := by
  intro txs hok k hk
  obtain ⟨bh, htxs⟩ := build_ok_shape connection programId user (p :: ps) options
    tokenProgramId txs (List.cons_ne_nil p ps) hok
  subst htxs
  have hc := effectiveChunkSize_pos options
  set c := effectiveChunkSize options with hcdef
  have hk2 : k < (chunkPairs (p :: ps) c).length := by simpa using hk
  have hget := chunkPairs_get (p :: ps) c hc k hk2
  have hk3 : k < ((p :: ps).length + c - 1) / c := by
    rw [← chunkPairs_length (p :: ps) c hc]
    exact hk2
  have hlt : c * k < (p :: ps).length := chunk_index_lt (p :: ps).length c k hc hk3
  have hlen0 : ¬ (((p :: ps).drop (c * k)).take c).length = 0 := by
    rw [List.length_take, List.length_drop]
    generalize hm : c * k = m at hlt
    omega
  refine ⟨mkBurnCloseIx programId user tokenProgramId (((p :: ps).drop (c * k)).take c),
    ?_, ?_⟩
  · rw [List.get_eq_getElem, List.getElem_map]
    rw [List.get_eq_getElem] at hget
    rw [hget]
    rfl
  · simp only [buildBurnAndCloseInstruction, if_neg hlen0]

/-- C10 witness: the first demo transaction wraps exactly the instruction the
single-instruction builder yields for the first chunk. -/
theorem C10_wraps_single_instruction_witness :
    buildBurnAndCloseInstruction PROGRAM_ID "user"
        ((([pairA, pairB, pairC] : List Pair).drop (effectiveChunkSize optsBh * 0)).take
          (effectiveChunkSize optsBh)) TOKEN_PROGRAM_ID
      = some txDemo0.instructions.headI := by
  have h := C10_wraps_single_instruction connDemo PROGRAM_ID "user" pairA [pairB, pairC]
    optsBh TOKEN_PROGRAM_ID txsDemo rfl 0 (by decide)
  obtain ⟨ix, h1, h2⟩ := h
  have h3 : txDemo0.instructions = [ix] := h1
  rw [h3]
  exact h2

end SplBurnClose
